import Mathlib

/-!
Verification development for the statistical core of `frechet-music-distance-fix`.

Source files embedded here (shallow embedding, exact rational arithmetic):
* `src/frechet_music_distance/gaussian_estimators/max_likelihood_estimator.py`
  (`MaxLikelihoodEstimator.estimate_parameters`, which calls `np.mean(features, axis=0)`
  and `np.cov(features, rowvar=False)`);
* `src/frechet_music_distance/gaussian_estimators/leodit_wolf_estimator.py`
  (`LeoditWolfEstimator`, which delegates to `sklearn.covariance.LedoitWolf`);
* `src/frechet_music_distance/models/clamp/clamp_extractor.py` and
  `src/frechet_music_distance/models/clamp2/clamp2_extractor.py`
  (extension dispatch of `extract_features_from_path`).

Machine floats are modelled by exact rationals; IEEE NaN values (which numpy
produces on degenerate inputs instead of raising) are modelled by `none` in
`Option ℚ`.  The numpy and scikit-learn library functions called by the source
are translated from their published implementations (numpy `cov` ndmin/transpose
/ddof logic, sklearn `LedoitWolf.fit` / `ledoit_wolf_shrinkage` blocked sums),
because the behaviour of the repository's four functions is exactly the
behaviour of those calls.
-/

namespace FMD

/-- Errors that the Python code can raise.  The source raises `ValueError`
(directly in the extractors, and indirectly inside `np.asarray` on ragged input
and inside sklearn's `validate_data`).  `invalidInputError` models the
`InvalidInputError` named by the spec's error taxonomy; no function in `src/`
ever raises it, it is included so that claims mentioning it can be stated. -/
inductive PyError where
  | valueError (msg : String)
  | invalidInputError
  deriving Repr, DecidableEq

/-- Equality of `Except` results is decidable when both components are. -/
instance {ε α : Type} [DecidableEq ε] [DecidableEq α] :
    DecidableEq (Except ε α) := fun a b =>
  match a, b with
  | .error e, .error f => decidable_of_iff (e = f) (by simp)
  | .ok x, .ok y => decidable_of_iff (x = y) (by simp)
  | .error _, .ok _ => isFalse (by simp)
  | .ok _, .error _ => isFalse (by simp)

/-- Result of a numpy computation: a 0-d scalar, a 1-d vector or a 2-d matrix.
Entries are `Option ℚ`: `none` models IEEE NaN. -/
inductive NpArr where
  | scalar (x : Option ℚ)
  | vec (v : List (Option ℚ))
  | mat (m : List (List (Option ℚ)))
  deriving Repr, DecidableEq

/-- View an `NpArr` as a 2-d matrix, undoing numpy's `squeeze` (a squeezed
`1×1` result carries the same single entry). -/
def NpArr.asMat : NpArr → List (List (Option ℚ))
  | .scalar x => [[x]]
  | .vec v => [v]
  | .mat m => m

/-- A nested Python list is a rectangular 2-d array: every row has the length
of the first row.  `np.asarray` succeeds on the nested list exactly in this
case and raises `ValueError` (inhomogeneous shape) otherwise. -/
def rectangular (features : List (List ℚ)) : Bool :=
  features.all fun r => r.length = (features.headD []).length

/-- The rectangular nested list as a `Matrix` (row-major, entry `(i, j)` is
element `j` of row `i`). -/
def toMat (rows : List (List ℚ)) :
    Matrix (Fin rows.length) (Fin (rows.headD []).length) ℚ :=
  Matrix.of fun i j => (rows.get i).getD j 0

/-- Column means of an `n × d` array: `np.mean(X, axis=0)` for `n ≥ 1`. -/
def mean0 {n d : ℕ} (X : Matrix (Fin n) (Fin d) ℚ) : Fin d → ℚ :=
  fun j => (∑ k, X k j) / (n : ℚ)

/-- Main path of `np.cov(X, rowvar=False)` for an input with `n ≠ 1` rows:
numpy transposes (`X = X.T`), takes row averages of the transpose, subtracts
them, and divides the scatter products by `fact = n - ddof` with `ddof = 1`.
Meaningful for `n ≥ 2` (the list-level wrapper `np_cov` reaches this code only
then; for `n ≤ 1` numpy clips `fact` to `0` and produces NaN, handled in the
wrapper). -/
def covMain {n d : ℕ} (X : Matrix (Fin n) (Fin d) ℚ) :
    Matrix (Fin d) (Fin d) ℚ :=
  let Y := X.transpose
  let avg : Fin d → ℚ := fun a => (∑ k, Y a k) / (n : ℚ)
  let Yc : Matrix (Fin d) (Fin n) ℚ := Matrix.of fun a k => Y a k - avg a
  Matrix.of fun a b => (∑ k, Yc a k * Yc b k) / ((n : ℚ) - 1)

/-- Branch of `np.cov(X, rowvar=False)` for a single-row input.  numpy's
`cov` only transposes when `X.shape[0] != 1`, so a `1 × d` input is kept as
one variable with `d` observations: the result is the 0-d unbiased variance of
the row's entries, `fact = d - 1`.  For `d ≤ 1`, `fact` is clipped to `0`
("Degrees of freedom <= 0" warning) and the result is NaN. -/
def covSingleRow (row : List ℚ) : Option ℚ :=
  let d := row.length
  if d ≤ 1 then none
  else
    let m : ℚ := (∑ i ∈ Finset.range d, row.getD i 0) / (d : ℚ)
    some ((∑ i ∈ Finset.range d, (row.getD i 0 - m) ^ 2) / ((d : ℚ) - 1))

/-- Embedding of `np.cov(features, rowvar=False)` on a rectangular nested
list.  Shape analysis follows numpy's implementation:
`array(m, ndmin=2)` promotes the empty list to shape `(1, 0)`;
the input is transposed only when it has `≠ 1` rows; if the (possibly
transposed) array has zero rows the result is an empty `(0, 0)` array;
`fact = n_observations - 1` clipped at `0` (NaN entries when clipped);
the final `c.squeeze()` turns a `1 × 1` result into a 0-d scalar. -/
def np_cov (features : List (List ℚ)) : NpArr :=
  match features with
  | [] => NpArr.scalar (covSingleRow [])
  | [row] => NpArr.scalar (covSingleRow row)
  | F =>
    if h0 : (F.headD []).length = 0 then NpArr.mat []
    else
      if h1 : (F.headD []).length = 1 then
        NpArr.scalar (some (covMain (toMat F) ⟨0, by omega⟩ ⟨0, by omega⟩))
      else
        NpArr.mat (List.ofFn fun a => List.ofFn fun b =>
          some (covMain (toMat F) a b))

/-- Embedding of `np.mean(features, axis=0)`.  On the empty list numpy
averages an empty slice and returns a 0-d NaN (with a `RuntimeWarning`, not an
exception); otherwise it returns the vector of column means. -/
def np_mean (features : List (List ℚ)) : NpArr :=
  if features.isEmpty then NpArr.scalar none
  else NpArr.vec (List.ofFn fun j => some (mean0 (toMat features) j))

/-- The estimator class holds no data (its `__init__` only calls
`super().__init__()`). -/
structure MaxLikelihoodEstimator where
  deriving Repr, DecidableEq

/-- Embedding of `MaxLikelihoodEstimator.estimate_parameters`:
`mean = np.mean(features, axis=0)`, `covariance = np.cov(features,
rowvar=False)`, no validation of any kind.  A ragged nested list makes
`np.asarray` (called inside `np.mean`) raise `ValueError` before any
computation; every rectangular input (including the empty one) produces a
result without raising. -/
def MaxLikelihoodEstimator.estimate_parameters (_self : MaxLikelihoodEstimator)
    (features : List (List ℚ)) : Except PyError (NpArr × NpArr) :=
  if rectangular features then
    .ok (np_mean features, np_cov features)
  else
    .error (.valueError "setting an array element with a sequence")

/-- Spec-side definition for C1, following the spec's words: the mean is the
arithmetic average of the rows. -/
def averageOfRows (features : List (List ℚ)) : List ℚ :=
  List.ofFn fun j : Fin (features.headD []).length =>
    (∑ k : Fin features.length, (features.get k).getD j 0) / (features.length : ℚ)

/-- Spec-side definition for C1, following the spec's words: the unbiased
sample covariance over rows (rows are samples, columns are features), entry
`(a, b)` being `∑ₖ (xₖₐ - x̄ₐ)(xₖᵦ - x̄ᵦ) / (n - 1)`. -/
def unbiasedSampleCovariance (features : List (List ℚ)) : List (List ℚ) :=
  let n := features.length
  let d := (features.headD []).length
  let xbar : Fin d → ℚ :=
    fun a => (∑ k : Fin n, (features.get k).getD a 0) / (n : ℚ)
  List.ofFn fun a : Fin d => List.ofFn fun b : Fin d =>
    (∑ k : Fin n, ((features.get k).getD a 0 - xbar a) *
      ((features.get k).getD b 0 - xbar b)) / ((n : ℚ) - 1)

/-! ### scikit-learn `LedoitWolf`

`LeoditWolfEstimator.estimate_parameters` calls `self.model.fit(features)` on a
`sklearn.covariance.LedoitWolf(assume_centered=False, block_size=block_size)`
instance and returns `(results.location_, results.covariance_)`.  The sklearn
computation (`fit`, `_ledoit_wolf`, `ledoit_wolf_shrinkage`,
`empirical_covariance`) is embedded below in exact arithmetic.  `fit` passes
`X - location_` further down with `assume_centered=True`, so the inner
functions are embedded on the already centered matrix. -/

/-- Entry access with zero padding outside the matrix: Python slices clamp at
the array bounds, so summing a slice expression over an `Finset.Ico` range of
`ℕ` indices with out-of-range entries read as `0` reproduces the slice sums. -/
def ent {n d : ℕ} (X : Matrix (Fin n) (Fin d) ℚ) (k a : ℕ) : ℚ :=
  if h : k < n ∧ a < d then X ⟨k, h.1⟩ ⟨a, h.2⟩ else 0

/-- Sum of `g a b` over a rectangle of column indices: the value of
`np.sum(f(X.T[rows], X[:, cols]))` terms in sklearn's blocked loops, where `g`
is the contribution of the column pair `(a, b)`. -/
def pairSum (g : ℕ → ℕ → ℚ) (A B : Finset ℕ) : ℚ :=
  ∑ a ∈ A, ∑ b ∈ B, g a b

/-- Contribution of a column pair to `beta_`:
`np.sum(np.dot(X2.T[rows], X2[:, cols]))` sums `∑ₖ X²[k,a]·X²[k,b]` over the
pairs in the block. -/
def gBeta {n d : ℕ} (Xc : Matrix (Fin n) (Fin d) ℚ) (a b : ℕ) : ℚ :=
  ∑ k ∈ Finset.range n, (ent Xc k a) ^ 2 * (ent Xc k b) ^ 2

/-- Contribution of a column pair to `delta_`:
`np.sum(np.dot(X.T[rows], X[:, cols]) ** 2)` sums `(∑ₖ X[k,a]·X[k,b])²`. -/
def gDelta {n d : ℕ} (Xc : Matrix (Fin n) (Fin d) ℚ) (a b : ℕ) : ℚ :=
  (∑ k ∈ Finset.range n, ent Xc k a * ent Xc k b) ^ 2

/-- The blocked accumulation of sklearn's `ledoit_wolf_shrinkage`:
`n_splits = int(n_features / block_size)` full blocks of `block_size` columns
plus the tail strip; the double loop adds the full-block rectangles, each row
of blocks is closed with a `(block, tail)` rectangle, then the `(tail, block)`
rectangles and the `(tail, tail)` corner. -/
def blockedSum (g : ℕ → ℕ → ℚ) (d bs : ℕ) : ℚ :=
  let ns := d / bs
  let blk : ℕ → Finset ℕ := fun i => Finset.Ico (bs * i) (bs * (i + 1))
  let tail : Finset ℕ := Finset.Ico (bs * ns) d
  (∑ i ∈ Finset.range ns,
    ((∑ j ∈ Finset.range ns, pairSum g (blk i) (blk j)) + pairSum g (blk i) tail))
  + (∑ j ∈ Finset.range ns, pairSum g tail (blk j))
  + pairSum g tail tail

/-- Final arithmetic of sklearn's `ledoit_wolf_shrinkage`, with `B` the
accumulated `beta_` sum, `D` the accumulated (not yet normalized) `delta_`
sum and `T` the value `emp_cov_trace.sum()`: sklearn sets
`delta_ = D / n²`, `mu = T / d`, `beta = 1/(d·n)·(B/n - delta_)`,
`delta = (delta_ - 2·mu·T + d·mu²)/d`, clips `beta` at `delta`, and returns
`0` when the clipped `beta` is `0`, else `beta / delta`. -/
def shrinkageFormula (B D T : ℚ) (d n : ℕ) : ℚ :=
  let delta_ : ℚ := D / (n : ℚ) ^ 2
  let mu : ℚ := T / (d : ℚ)
  let beta1 : ℚ := 1 / ((d : ℚ) * (n : ℚ)) * (B / (n : ℚ) - delta_)
  let delta : ℚ := (delta_ - 2 * mu * T + (d : ℚ) * mu ^ 2) / (d : ℚ)
  let beta := min beta1 delta
  if beta = 0 then 0 else beta / delta

/-- Embedding of `sklearn.covariance.ledoit_wolf_shrinkage` on the centered
matrix (`assume_centered=True` path, which is how `LedoitWolf.fit` calls it).
For a single feature it returns `0`; otherwise the analytic Ledoit-Wolf
formula (`shrinkageFormula`) applied to the blocked `beta_`/`delta_` sums and
to `np.sum(X2, axis=0) / n_samples` summed over the features
(`emp_cov_trace.sum()`). -/
def ledoit_wolf_shrinkage {n d : ℕ} (Xc : Matrix (Fin n) (Fin d) ℚ)
    (bs : ℕ) : ℚ :=
  if d = 1 then 0
  else
    shrinkageFormula (blockedSum (gBeta Xc) d bs) (blockedSum (gDelta Xc) d bs)
      (∑ a ∈ Finset.range d,
        (∑ k ∈ Finset.range n, (ent Xc k a) ^ 2) / (n : ℚ)) d n

/-- Embedding of `sklearn.covariance.empirical_covariance` with
`assume_centered=True`: `np.dot(X.T, X) / n_samples`. -/
def empirical_covariance {n d : ℕ} (Xc : Matrix (Fin n) (Fin d) ℚ) :
    Matrix (Fin d) (Fin d) ℚ :=
  Matrix.of fun a b => (∑ k, Xc k a * Xc k b) / (n : ℚ)

/-- Embedding of sklearn's `_ledoit_wolf` on the centered matrix
(`assume_centered=True` path): for a single feature the covariance is the mean
of the squared entries with shrinkage `0`; otherwise
`shrunk = (1 - shrinkage) * emp_cov` with `shrinkage * mu` added on the
diagonal (`shrunk_cov.flat[::n_features + 1] += shrinkage * mu`). -/
def ledoitWolfShrunk {n d : ℕ} (Xc : Matrix (Fin n) (Fin d) ℚ) (bs : ℕ) :
    Matrix (Fin d) (Fin d) ℚ × ℚ :=
  if d = 1 then
    (Matrix.of fun _ _ => (∑ k, ∑ a, (Xc k a) ^ 2) / ((n : ℚ) * (d : ℚ)), 0)
  else
    let s := ledoit_wolf_shrinkage Xc bs
    let emp := empirical_covariance Xc
    let mu := (∑ a, emp a a) / (d : ℚ)
    (Matrix.of fun a b =>
      (1 - s) * emp a b + (if a = b then s * mu else 0), s)

/-- The sklearn `LedoitWolf` object: constructor parameters plus the fitted
attributes that `fit` writes onto the object (`none` before the first fit).
The Python object is mutable; mutation is modelled by returning the updated
object. -/
structure LedoitWolf where
  assume_centered : Bool
  block_size : ℕ
  location_ : Option (List ℚ) := none
  covariance_ : Option (List (List ℚ)) := none
  shrinkage_ : Option ℚ := none
  deriving Repr, DecidableEq

/-- Embedding of `LedoitWolf.fit`.  `validate_data` rejects ragged input
(`np.asarray` failure) and empty input (0 samples or 0 features) with
`ValueError`; then `location_` is the column mean (or zero when
`assume_centered`), and `_ledoit_wolf(X - location_, assume_centered=True,
block_size)` gives the covariance and shrinkage, all stored on the object. -/
def LedoitWolf.fit (self : LedoitWolf) (X : List (List ℚ)) :
    Except PyError LedoitWolf :=
  if ¬ rectangular X then
    .error (.valueError "setting an array element with a sequence")
  else if X.length = 0 ∨ (X.headD []).length = 0 then
    .error (.valueError "Found array with 0 sample(s) or 0 feature(s)")
  else
    let M := toMat X
    let loc : Fin (X.headD []).length → ℚ :=
      if self.assume_centered then fun _ => 0 else mean0 M
    let Xc : Matrix (Fin X.length) (Fin (X.headD []).length) ℚ :=
      Matrix.of fun k a => M k a - loc a
    let r := ledoitWolfShrunk Xc self.block_size
    .ok { self with
          location_ := some (List.ofFn fun a => loc a),
          covariance_ := some (List.ofFn fun a => List.ofFn fun b => r.1 a b),
          shrinkage_ := some r.2 }

/-- The estimator object from `leodit_wolf_estimator.py` (the source's
spelling): it owns a `LedoitWolf` model. -/
structure LeoditWolfEstimator where
  model : LedoitWolf
  deriving Repr, DecidableEq

/-- Embedding of `LeoditWolfEstimator.__init__`: builds
`LedoitWolf(assume_centered=False, block_size=block_size)` with the default
`block_size: int = 1000`. -/
def LeoditWolfEstimator.init (block_size : ℕ := 1000) : LeoditWolfEstimator :=
  ⟨{ assume_centered := false, block_size := block_size }⟩

/-- Embedding of `LeoditWolfEstimator.estimate_parameters`:
`results = self.model.fit(features)` (which mutates `self.model`), then
returns `(results.location_, results.covariance_)`.  The mutated estimator is
returned alongside the result. -/
def LeoditWolfEstimator.estimate_parameters (self : LeoditWolfEstimator)
    (features : List (List ℚ)) :
    Except PyError ((List ℚ × List (List ℚ)) × LeoditWolfEstimator) :=
  match self.model.fit features with
  | .error e => .error e
  | .ok m => .ok ((m.location_.getD [], m.covariance_.getD []), ⟨m⟩)

/-! ### Extractor extension dispatch

`CLaMPExtractor.extract_features_from_path` and
`CLaMP2Extractor.extract_features_from_path` compute
`extension = get_dataset_ext(dataset_path)` (a dataloader helper outside the
embedded core that inspects the files under the path) and dispatch on it.  The
dispatch is embedded as a function of that extension string; the value
returned in the success case records which dataloader would be invoked, so the
error branch visibly performs no load. -/

/-- Which dataloader a successful dispatch invokes. -/
inductive DatasetLoad where
  | abcDataset
  | midiDataset
  deriving Repr, DecidableEq

/-- Embedding of the dispatch in `CLaMPExtractor.extract_features_from_path`:
only `".abc"` is accepted; anything else raises `ValueError` before any
dataset is loaded. -/
def CLaMPExtractor.extract_features_from_path (extension : String) :
    Except PyError DatasetLoad :=
  if extension = ".abc" then .ok .abcDataset
  else .error (.valueError ("CLAmP supports .abc files but got " ++ extension))

/-- Embedding of the dispatch in `CLaMP2Extractor.extract_features_from_path`:
`".mid"`/`".midi"` go to the MIDI dataloader, `".abc"` to the ABC dataloader,
anything else raises `ValueError` before any dataset is loaded. -/
def CLaMP2Extractor.extract_features_from_path (extension : String) :
    Except PyError DatasetLoad :=
  if extension = ".mid" ∨ extension = ".midi" then .ok .midiDataset
  else if extension = ".abc" then .ok .abcDataset
  else .error (.valueError
    ("CLAmP 2 supports .mid, .midi and .abc files but got " ++ extension))

/-! ### Claims C2, C3, C4, C10 -/

/-- C10: for every dataset extension other than `".abc"`,
`CLaMPExtractor.extract_features_from_path` raises `ValueError` without
loading any data, and for every extension outside
`{".mid", ".midi", ".abc"}`, `CLaMP2Extractor.extract_features_from_path`
raises `ValueError` without loading any data. -/
theorem C10_extension_dispatch (ext : String) :
    (ext ≠ ".abc" → CLaMPExtractor.extract_features_from_path ext =
      .error (.valueError ("CLAmP supports .abc files but got " ++ ext))) ∧
    (ext ≠ ".mid" → ext ≠ ".midi" → ext ≠ ".abc" →
      CLaMP2Extractor.extract_features_from_path ext =
        .error (.valueError
          ("CLAmP 2 supports .mid, .midi and .abc files but got " ++ ext))) := by
  constructor
  · intro h
    simp [CLaMPExtractor.extract_features_from_path, h]
  · intro h1 h2 h3
    simp [CLaMP2Extractor.extract_features_from_path, h1, h2, h3]

/-- Witness for C10 at the concrete extension `".mp3"`. -/
theorem C10_extension_dispatch_witness :
    CLaMPExtractor.extract_features_from_path ".mp3" =
      .error (.valueError ("CLAmP supports .abc files but got " ++ ".mp3")) ∧
    CLaMP2Extractor.extract_features_from_path ".mp3" =
      .error (.valueError
        ("CLAmP 2 supports .mid, .midi and .abc files but got " ++ ".mp3")) :=
  ⟨(C10_extension_dispatch ".mp3").1 (by decide),
   (C10_extension_dispatch ".mp3").2 (by decide) (by decide) (by decide)⟩

/-- C2 counterexample: on the empty features matrix,
`MaxLikelihoodEstimator.estimate_parameters` does not fail with
`InvalidInputError` (nor with anything else): it returns a NaN mean and NaN
covariance, because the method performs no validation whatsoever. -/
theorem C2_counterexample :
    MaxLikelihoodEstimator.estimate_parameters {} [] =
      .ok (.scalar none, .scalar none) := by
  simp [MaxLikelihoodEstimator.estimate_parameters, rectangular, np_mean, np_cov,
    covSingleRow]

/-- Helper: `LedoitWolf.fit` only ever fails with a `ValueError`. -/
theorem LedoitWolf.fit_error_is_valueError (m : LedoitWolf)
    (X : List (List ℚ)) (e : PyError) (h : m.fit X = .error e) :
    ∃ s, e = .valueError s := by
  unfold LedoitWolf.fit at h
  split at h
  · exact ⟨_, (Except.error.inj h).symm⟩
  · split at h
    · exact ⟨_, (Except.error.inj h).symm⟩
    · exact absurd h (by simp)

/-- C2 (amended): no estimator ever raises the spec's `InvalidInputError`.
`MaxLikelihoodEstimator.estimate_parameters` performs no validation at all: on
the empty matrix it returns NaN mean and NaN covariance instead of failing,
and a ragged matrix only triggers numpy's generic `ValueError` during array
construction.  The shrinkage estimator rejects the empty matrix, but with
sklearn's generic `ValueError`. -/
theorem C2_amended (features : List (List ℚ)) (self : MaxLikelihoodEstimator)
    (lw : LeoditWolfEstimator) :
    self.estimate_parameters features ≠ .error .invalidInputError ∧
    lw.estimate_parameters features ≠ .error .invalidInputError ∧
    MaxLikelihoodEstimator.estimate_parameters {} [] =
      .ok (.scalar none, .scalar none) ∧
    LeoditWolfEstimator.estimate_parameters (.init) [] =
      .error (.valueError "Found array with 0 sample(s) or 0 feature(s)") ∧
    MaxLikelihoodEstimator.estimate_parameters {} [[1], [2, 3]] =
      .error (.valueError "setting an array element with a sequence") := by
  refine ⟨?_, ?_,
    by simp [MaxLikelihoodEstimator.estimate_parameters, rectangular, np_mean,
      np_cov, covSingleRow],
    by simp [LeoditWolfEstimator.estimate_parameters, LeoditWolfEstimator.init,
      LedoitWolf.fit, rectangular],
    by simp [MaxLikelihoodEstimator.estimate_parameters, rectangular]⟩
  · unfold MaxLikelihoodEstimator.estimate_parameters
    split <;> simp
  · unfold LeoditWolfEstimator.estimate_parameters
    rcases h : lw.model.fit features with e | m
    · obtain ⟨s, rfl⟩ := LedoitWolf.fit_error_is_valueError _ _ _ h
      simp
    · simp

/-- C3 counterexample: on the single-row matrix `[[1, 2, 3, 4]]`,
`MaxLikelihoodEstimator.estimate_parameters` raises no error but the
covariance it returns is not an all-zero (nor any) `4 × 4` matrix: because
`np.cov` does not transpose a single-row input, the result is the 0-d scalar
`5/3`, the unbiased variance of the row's four entries — and `5/3 ≠ 0`. -/
theorem C3_counterexample :
    MaxLikelihoodEstimator.estimate_parameters {} [[1, 2, 3, 4]] =
      .ok (.vec [some 1, some 2, some 3, some 4], .scalar (some (5 / 3))) ∧
    (5 / 3 : ℚ) ≠ 0 := by
  constructor
  · simp [MaxLikelihoodEstimator.estimate_parameters, rectangular, np_mean, np_cov,
      covSingleRow, mean0, toMat, Fin.sum_univ_succ, Finset.sum_range_succ,
      List.ofFn_succ]
    norm_num
  · norm_num

/-- C3 (amended): on any single-row matrix `[row]`,
`MaxLikelihoodEstimator.estimate_parameters` raises no error and returns the
row itself as mean, but the covariance is the squeezed 0-d scalar
`covSingleRow row` — the unbiased variance of the row's entries (`np.cov`
keeps a single-row input untransposed, treating it as one variable with `D`
observations) — which is NaN exactly when the row has at most one entry, and
never the all-zero `D × D` matrix of the claim. -/
theorem C3_amended (row : List ℚ) :
    MaxLikelihoodEstimator.estimate_parameters {} [row] =
      .ok (.vec (row.map some), .scalar (covSingleRow row)) ∧
    (covSingleRow row = none ↔ row.length ≤ 1) := by
  constructor
  · have hrect : rectangular [row] = true := by
      simp [rectangular]
    have hmean : np_mean [row] = .vec (row.map some) := by
      unfold np_mean
      simp only [List.isEmpty_cons, if_false, Bool.false_eq_true]
      have : (fun j : Fin (([row].headD []).length) =>
          some (mean0 (toMat [row]) j)) =
          fun j : Fin row.length => some (row[(j : ℕ)]) := by
        funext j
        simp [mean0, toMat, Fin.sum_univ_one, Matrix.of_apply,
          List.getD_eq_getElem _ _ j.isLt]
      rw [this, List.ofFn_getElem_eq_map row some]
    have hcov : np_cov [row] = .scalar (covSingleRow row) := by
      unfold np_cov
      simp
    unfold MaxLikelihoodEstimator.estimate_parameters
    rw [hrect, hmean, hcov]
    simp
  · by_cases h : row.length ≤ 1
    · simp [covSingleRow, h]
    · simp [covSingleRow, h]


/-- Helper: `LedoitWolf.fit` reads only the configuration fields
(`assume_centered`, `block_size`) of the object; the previously fitted
attributes are overwritten, so they do not influence the result. -/
theorem LedoitWolf.fit_ignores_fitted (ac : Bool) (bs : ℕ)
    (l l' : Option (List ℚ)) (c c' : Option (List (List ℚ)))
    (sh sh' : Option ℚ) (X : List (List ℚ)) :
    LedoitWolf.fit ⟨ac, bs, l, c, sh⟩ X = LedoitWolf.fit ⟨ac, bs, l', c', sh'⟩ X :=
  rfl

/-- Helper: a successful `LedoitWolf.fit` keeps the configuration fields. -/
theorem LedoitWolf.fit_preserves_config (m m' : LedoitWolf)
    (X : List (List ℚ)) (h : m.fit X = .ok m') :
    m'.assume_centered = m.assume_centered ∧ m'.block_size = m.block_size := by
  unfold LedoitWolf.fit at h
  split at h
  · exact absurd h (by simp)
  · split at h
    · exact absurd h (by simp)
    · obtain rfl := Except.ok.inj h
      exact ⟨rfl, rfl⟩

/-- C4 counterexample: calling
`LeoditWolfEstimator.estimate_parameters` on the valid matrix `[[0], [0]]`
does not leave the estimator object unchanged: the fresh estimator's
`model.location_` is unset, and after the call it is set (sklearn's `fit`
stores `location_`, `covariance_` and `shrinkage_` on `self.model`, state
that persists across calls). -/
theorem C4_counterexample :
    (LeoditWolfEstimator.init.estimate_parameters [[0], [0]]).map
      (fun r => r.2.model.location_.isSome) = .ok true ∧
    (LeoditWolfEstimator.init).model.location_.isSome = false := by
  constructor
  · simp [LeoditWolfEstimator.estimate_parameters, LeoditWolfEstimator.init,
      LedoitWolf.fit, rectangular, Except.map]
  · rfl

/-- C4 (amended): `MaxLikelihoodEstimator` is genuinely stateless (the object
carries no data at all), and while `LeoditWolfEstimator.estimate_parameters`
mutates its internal sklearn model (storing the fitted attributes), the
result depends only on the configuration (`assume_centered`, `block_size`)
and the input matrix — never on previously fitted state — so two calls with
identical input matrices return identical results, and a repeated call is a
fixpoint of both result and state. -/
theorem C4_amended (a b : MaxLikelihoodEstimator) (s s' : LeoditWolfEstimator)
    (f : List (List ℚ))
    (hac : s.model.assume_centered = s'.model.assume_centered)
    (hbs : s.model.block_size = s'.model.block_size) :
    a = b ∧
    a.estimate_parameters f = b.estimate_parameters f ∧
    s.estimate_parameters f = s'.estimate_parameters f ∧
    (∀ r t, s.estimate_parameters f = .ok (r, t) →
      t.estimate_parameters f = .ok (r, t)) := by
  obtain ⟨⟨ac, bs, l, c, sh⟩⟩ := s
  obtain ⟨⟨ac', bs', l', c', sh'⟩⟩ := s'
  simp only at hac hbs
  subst hac
  subst hbs
  refine ⟨by cases a; cases b; rfl, rfl, rfl, ?_⟩
  intro r t h
  simp only [LeoditWolfEstimator.estimate_parameters] at h ⊢
  rcases hf : LedoitWolf.fit ⟨ac, bs, l, c, sh⟩ f with e | m
  · rw [hf] at h
    exact absurd h (by simp)
  · rw [hf] at h
    obtain ⟨hrm, htm⟩ := Prod.mk.injEq .. ▸ Except.ok.inj h
    obtain ⟨mac, mbs, ml, mc, msh⟩ := m
    obtain ⟨hac2, hbs2⟩ := LedoitWolf.fit_preserves_config _ _ _ hf
    simp only at hac2 hbs2
    subst hac2
    subst hbs2
    rw [← htm]
    simp only
    rw [LedoitWolf.fit_ignores_fitted _ _ ml l mc c msh sh, hf, ← hrm]

/-- Witness for C4 at two concrete estimator objects that share the default
configuration but differ in fitted state, on the matrix `[[0], [0]]`. -/
theorem C4_amended_witness :
    ({} : MaxLikelihoodEstimator) = {} ∧
    MaxLikelihoodEstimator.estimate_parameters {} [[0], [0]] =
      MaxLikelihoodEstimator.estimate_parameters {} [[0], [0]] ∧
    LeoditWolfEstimator.init.estimate_parameters [[0], [0]] =
      LeoditWolfEstimator.estimate_parameters
        ⟨{ assume_centered := false, block_size := 1000,
           location_ := some [0], covariance_ := some [[0]],
           shrinkage_ := some 0 }⟩ [[0], [0]] ∧
    (∀ r t, LeoditWolfEstimator.init.estimate_parameters [[0], [0]] = .ok (r, t) →
      t.estimate_parameters [[0], [0]] = .ok (r, t)) :=
  C4_amended {} {} LeoditWolfEstimator.init
    ⟨{ assume_centered := false, block_size := 1000,
       location_ := some [0], covariance_ := some [[0]],
       shrinkage_ := some 0 }⟩ [[0], [0]] rfl rfl

/-- Helper: a `List.ofFn` over an index type known to have one element. -/
theorem ofFn_length_one {α : Type} {d : ℕ} (h : d = 1) (f : Fin d → α) :
    List.ofFn f = [f ⟨0, by omega⟩] := by
  subst h
  simp [List.ofFn_succ]

/-- C1: on every rectangular embedding matrix with at least 2 rows,
`MaxLikelihoodEstimator.estimate_parameters` succeeds and returns exactly the
arithmetic average of the rows as mean together with the unbiased sample
covariance over rows (rowvar=False convention; `np.cov` transposes, centers by
the column means and divides by `n - 1`).  The returned covariance is compared
through `NpArr.asMat`, which undoes the final `c.squeeze()` of `np.cov`
(for `D = 1` numpy returns the squeezed 0-d scalar carrying the same single
entry). -/
theorem C1_mle_mean_and_unbiased_cov (features : List (List ℚ))
    (hrect : rectangular features = true) (hn : 2 ≤ features.length) :
    MaxLikelihoodEstimator.estimate_parameters {} features =
      .ok (np_mean features, np_cov features) ∧
    np_mean features = .vec ((averageOfRows features).map some) ∧
    (np_cov features).asMat =
      (unbiasedSampleCovariance features).map (List.map some) := by
  refine ⟨by simp [MaxLikelihoodEstimator.estimate_parameters, hrect], ?_, ?_⟩
  · have hne : features.isEmpty = false := by
      cases features with
      | nil => simp at hn
      | cons a l => rfl
    unfold np_mean
    rw [hne]
    simp only [Bool.false_eq_true, if_false]
    unfold averageOfRows
    rw [List.map_ofFn]
    rfl
  · rcases features with _ | ⟨r1, _ | ⟨r2, rs⟩⟩
    · simp at hn
    · simp at hn
    simp only [np_cov]
    by_cases h0 : ((r1 :: r2 :: rs).headD []).length = 0
    · rw [dif_pos h0]
      have hz : (unbiasedSampleCovariance (r1 :: r2 :: rs)) = [] := by
        simp only [unbiasedSampleCovariance]
        exact List.ofFn_eq_nil_iff.mpr h0
      rw [hz]
      rfl
    · by_cases h1 : ((r1 :: r2 :: rs).headD []).length = 1
      · rw [dif_neg h0, dif_pos h1]
        have hz : (unbiasedSampleCovariance (r1 :: r2 :: rs)) =
            [[covMain (toMat (r1 :: r2 :: rs)) ⟨0, by omega⟩ ⟨0, by omega⟩]] := by
          simp only [unbiasedSampleCovariance]
          rw [ofFn_length_one h1, ofFn_length_one h1]
          rfl
        rw [hz]
        rfl
      · rw [dif_neg h0, dif_neg h1]
        simp only [NpArr.asMat, unbiasedSampleCovariance, List.map_ofFn]
        apply congrArg List.ofFn
        funext a
        simp only [Function.comp_apply]
        rw [List.map_ofFn]
        rfl

/-- Witness for C1 at the concrete matrix `[[1, 2], [3, 5]]`. -/
theorem C1_mle_mean_and_unbiased_cov_witness :
    MaxLikelihoodEstimator.estimate_parameters {} [[1, 2], [3, 5]] =
      .ok (np_mean [[1, 2], [3, 5]], np_cov [[1, 2], [3, 5]]) ∧
    np_mean [[1, 2], [3, 5]] = .vec ((averageOfRows [[1, 2], [3, 5]]).map some) ∧
    (np_cov [[1, 2], [3, 5]]).asMat =
      (unbiasedSampleCovariance [[1, 2], [3, 5]]).map (List.map some) :=
  C1_mle_mean_and_unbiased_cov [[1, 2], [3, 5]] (by rfl) (by decide)

/-- Helper: summing a function over the full blocks `[bs*i, bs*(i+1))` for
`i < d / bs` followed by the tail strip `[bs*(d/bs), d)` is the sum over
`[0, d)` — Python's blocked slices partition the column range. -/
theorem sum_blocks (F : ℕ → ℚ) (d bs : ℕ) :
    ((∑ i ∈ Finset.range (d / bs), ∑ a ∈ Finset.Ico (bs * i) (bs * (i + 1)), F a)
      + ∑ a ∈ Finset.Ico (bs * (d / bs)) d, F a)
    = ∑ a ∈ Finset.range d, F a := by
  have key : ∀ m : ℕ,
      (∑ i ∈ Finset.range m, ∑ a ∈ Finset.Ico (bs * i) (bs * (i + 1)), F a)
        = ∑ a ∈ Finset.Ico 0 (bs * m), F a := by
    intro m
    induction m with
    | zero => simp
    | succ m ih =>
      rw [Finset.sum_range_succ, ih,
        Finset.sum_Ico_consecutive F (Nat.zero_le _)
          (Nat.mul_le_mul_left bs (Nat.le_succ m))]
  rw [key, Finset.sum_Ico_consecutive F (Nat.zero_le _)
    (Nat.le_trans (Nat.le_of_eq (Nat.mul_comm bs (d / bs))) (Nat.div_mul_le_self d bs)),
    ← Finset.range_eq_Ico]

/-- The blocked accumulation of sklearn's shrinkage loops equals the plain
double sum over all column pairs: chunking only regroups the summands, which
is invisible in exact arithmetic. -/
theorem blockedSum_eq (g : ℕ → ℕ → ℚ) (d bs : ℕ) (_hbs : 1 ≤ bs) :
    blockedSum g d bs = ∑ a ∈ Finset.range d, ∑ b ∈ Finset.range d, g a b := by
  simp only [blockedSum, pairSum]
  have h1 : ∀ A : Finset ℕ,
      ((∑ j ∈ Finset.range (d / bs), ∑ a ∈ A,
          ∑ b ∈ Finset.Ico (bs * j) (bs * (j + 1)), g a b)
        + ∑ a ∈ A, ∑ b ∈ Finset.Ico (bs * (d / bs)) d, g a b)
      = ∑ a ∈ A, ∑ b ∈ Finset.range d, g a b := by
    intro A
    rw [Finset.sum_comm, ← Finset.sum_add_distrib]
    exact Finset.sum_congr rfl fun a _ => sum_blocks (g a) d bs
  have h2 : ∀ i : ℕ,
      ((∑ j ∈ Finset.range (d / bs), ∑ a ∈ Finset.Ico (bs * i) (bs * (i + 1)),
          ∑ b ∈ Finset.Ico (bs * j) (bs * (j + 1)), g a b)
        + ∑ a ∈ Finset.Ico (bs * i) (bs * (i + 1)),
            ∑ b ∈ Finset.Ico (bs * (d / bs)) d, g a b)
      = ∑ a ∈ Finset.Ico (bs * i) (bs * (i + 1)), ∑ b ∈ Finset.range d, g a b :=
    fun i => h1 _
  calc (∑ i ∈ Finset.range (d / bs),
          ((∑ j ∈ Finset.range (d / bs), ∑ a ∈ Finset.Ico (bs * i) (bs * (i + 1)),
              ∑ b ∈ Finset.Ico (bs * j) (bs * (j + 1)), g a b)
            + ∑ a ∈ Finset.Ico (bs * i) (bs * (i + 1)),
                ∑ b ∈ Finset.Ico (bs * (d / bs)) d, g a b))
        + (∑ j ∈ Finset.range (d / bs), ∑ a ∈ Finset.Ico (bs * (d / bs)) d,
            ∑ b ∈ Finset.Ico (bs * j) (bs * (j + 1)), g a b)
        + ∑ a ∈ Finset.Ico (bs * (d / bs)) d,
            ∑ b ∈ Finset.Ico (bs * (d / bs)) d, g a b
      = (∑ i ∈ Finset.range (d / bs),
          ∑ a ∈ Finset.Ico (bs * i) (bs * (i + 1)), ∑ b ∈ Finset.range d, g a b)
        + ∑ a ∈ Finset.Ico (bs * (d / bs)) d, ∑ b ∈ Finset.range d, g a b := by
        rw [Finset.sum_congr rfl fun i _ => h2 i, add_assoc, h1]
    _ = ∑ a ∈ Finset.range d, ∑ b ∈ Finset.range d, g a b :=
        sum_blocks (fun a => ∑ b ∈ Finset.range d, g a b) d bs

/-- Helper: the shrinkage coefficient does not depend on the block size
(for the positive block sizes Python can run with). -/
theorem ledoit_wolf_shrinkage_bs_invariant {n d : ℕ}
    (Xc : Matrix (Fin n) (Fin d) ℚ) (bs bs' : ℕ)
    (hbs : 1 ≤ bs) (hbs' : 1 ≤ bs') :
    ledoit_wolf_shrinkage Xc bs = ledoit_wolf_shrinkage Xc bs' := by
  simp only [ledoit_wolf_shrinkage, blockedSum_eq _ _ bs hbs,
    blockedSum_eq _ _ bs' hbs']

/-- Helper: the shrunk covariance does not depend on the block size. -/
theorem ledoitWolfShrunk_bs_invariant {n d : ℕ}
    (Xc : Matrix (Fin n) (Fin d) ℚ) (bs bs' : ℕ)
    (hbs : 1 ≤ bs) (hbs' : 1 ≤ bs') :
    ledoitWolfShrunk Xc bs = ledoitWolfShrunk Xc bs' := by
  simp only [ledoitWolfShrunk,
    ledoit_wolf_shrinkage_bs_invariant Xc bs bs' hbs hbs']

/-- Helper: `LedoitWolf.fit` produces the same mathematical output
(`location_`, `covariance_`, `shrinkage_`) whatever the block size. -/
theorem LedoitWolf.fit_bs_invariant (ac : Bool) (bs bs' : ℕ)
    (l l' : Option (List ℚ)) (c c' : Option (List (List ℚ)))
    (sh sh' : Option ℚ) (X : List (List ℚ)) (hbs : 1 ≤ bs) (hbs' : 1 ≤ bs') :
    (LedoitWolf.fit ⟨ac, bs, l, c, sh⟩ X).map
      (fun m => (m.location_, m.covariance_, m.shrinkage_)) =
    (LedoitWolf.fit ⟨ac, bs', l', c', sh'⟩ X).map
      (fun m => (m.location_, m.covariance_, m.shrinkage_)) := by
  unfold LedoitWolf.fit
  split
  · rfl
  · split
    · rfl
    · simp only [Except.map]
      rw [ledoitWolfShrunk_bs_invariant _ bs bs' hbs hbs']

/-- C5: the shrinkage estimator defaults to `block_size = 1000` and always
uses `assume_centered=False`; the block size only controls internal chunking
and leaves the returned `(mean, covariance)` unchanged (in exact arithmetic);
and on success the returned mean is the column mean estimated from the data
(not assumed zero), paired with the shrunk covariance. -/
theorem C5_blocksize (X : List (List ℚ)) (bs bs' : ℕ)
    (hbs : 1 ≤ bs) (hbs' : 1 ≤ bs') :
    LeoditWolfEstimator.init =
      ⟨{ assume_centered := false, block_size := 1000 }⟩ ∧
    (∀ b : ℕ, (LeoditWolfEstimator.init b).model.assume_centered = false) ∧
    (LeoditWolfEstimator.estimate_parameters
        ⟨{ assume_centered := false, block_size := bs }⟩ X).map Prod.fst =
      (LeoditWolfEstimator.estimate_parameters
        ⟨{ assume_centered := false, block_size := bs' }⟩ X).map Prod.fst ∧
    (∀ r t, LeoditWolfEstimator.estimate_parameters (.init bs) X = .ok (r, t) →
      r.1 = List.ofFn (mean0 (toMat X)) ∧
      r.2 = List.ofFn fun a => List.ofFn fun b =>
        (ledoitWolfShrunk
          (Matrix.of fun k a' => toMat X k a' - mean0 (toMat X) a') bs).1 a b) := by
  refine ⟨rfl, fun b => rfl, ?_, ?_⟩
  · have h := LedoitWolf.fit_bs_invariant false bs bs' none none none none
      none none X hbs hbs'
    unfold LeoditWolfEstimator.estimate_parameters
    rcases hfa : LedoitWolf.fit ⟨false, bs, none, none, none⟩ X with e | m <;>
      rcases hfb : LedoitWolf.fit ⟨false, bs', none, none, none⟩ X with e' | m' <;>
      rw [hfa, hfb] at h <;> simp only [Except.map] at h
    · obtain rfl := Except.error.inj h
      rfl
    · exact absurd h (by simp)
    · exact absurd h (by simp)
    · simp only [Except.ok.injEq, Prod.mk.injEq] at h
      simp [Except.map, h.1, h.2.1]
  · intro r t h
    simp only [LeoditWolfEstimator.estimate_parameters,
      LeoditWolfEstimator.init] at h
    rcases hf : LedoitWolf.fit ⟨false, bs, none, none, none⟩ X with e | m
    · rw [hf] at h
      exact absurd h (by simp)
    · rw [hf] at h
      simp only [Except.ok.injEq, Prod.mk.injEq] at h
      obtain ⟨h1, -⟩ := h
      unfold LedoitWolf.fit at hf
      split at hf
      · exact absurd hf (by simp)
      · split at hf
        · exact absurd hf (by simp)
        · obtain rfl := Except.ok.inj hf
          refine ⟨?_, ?_⟩ <;> rw [← h1] <;> simp

/-- Witness for C5 at the matrix `[[0], [0]]` and block sizes `2` and `3`. -/
theorem C5_blocksize_witness :
    LeoditWolfEstimator.init =
      ⟨{ assume_centered := false, block_size := 1000 }⟩ ∧
    (∀ b : ℕ, (LeoditWolfEstimator.init b).model.assume_centered = false) ∧
    (LeoditWolfEstimator.estimate_parameters
        ⟨{ assume_centered := false, block_size := 2 }⟩ [[0], [0]]).map Prod.fst =
      (LeoditWolfEstimator.estimate_parameters
        ⟨{ assume_centered := false, block_size := 3 }⟩ [[0], [0]]).map Prod.fst ∧
    (∀ r t, LeoditWolfEstimator.estimate_parameters (.init 2) [[0], [0]] =
        .ok (r, t) →
      r.1 = List.ofFn (mean0 (toMat [[0], [0]])) ∧
      r.2 = List.ofFn fun a => List.ofFn fun b =>
        (ledoitWolfShrunk
          (Matrix.of fun k a' =>
            toMat [[0], [0]] k a' - mean0 (toMat [[0], [0]]) a') 2).1 a b) :=
  C5_blocksize [[0], [0]] 2 3 (by decide) (by decide)

/-! ### Positive semidefiniteness machinery (claims C6, C7) -/

/-- Symmetric positive semidefinite, quadratic-form formulation over `ℚ`. -/
def IsSymmPSD {d : ℕ} (M : Matrix (Fin d) (Fin d) ℚ) : Prop :=
  M.transpose = M ∧ ∀ v : Fin d → ℚ, 0 ≤ Matrix.dotProduct v (M.mulVec v)

/-- Symmetric positive definite, quadratic-form formulation over `ℚ`. -/
def IsSymmPD {d : ℕ} (M : Matrix (Fin d) (Fin d) ℚ) : Prop :=
  M.transpose = M ∧ ∀ v : Fin d → ℚ, v ≠ 0 → 0 < Matrix.dotProduct v (M.mulVec v)

/-- The centered data matrix: each column minus its column mean.  With
`assume_centered=False` this is the matrix `X - self.location_` that
`LedoitWolf.fit` hands to `_ledoit_wolf`, and the matrix `np.cov` builds
internally on its main path. -/
def centeredM {n d : ℕ} (X : Matrix (Fin n) (Fin d) ℚ) :
    Matrix (Fin n) (Fin d) ℚ :=
  Matrix.of fun k a => X k a - mean0 X a

/-- The quadratic form of a Gram matrix is a sum of squares. -/
theorem gram_quadform {n d : ℕ} (X : Matrix (Fin n) (Fin d) ℚ)
    (v : Fin d → ℚ) :
    Matrix.dotProduct v
      ((Matrix.of fun a b => ∑ k, X k a * X k b).mulVec v) =
    ∑ k, (∑ a, X k a * v a) ^ 2 := by
  simp only [Matrix.dotProduct, Matrix.mulVec, Matrix.of_apply]
  calc ∑ a, v a * ∑ b, (∑ k, X k a * X k b) * v b
      = ∑ a, ∑ b, ∑ k, (X k a * v a) * (X k b * v b) := by
        refine Finset.sum_congr rfl fun a _ => ?_
        rw [Finset.mul_sum]
        refine Finset.sum_congr rfl fun b _ => ?_
        rw [Finset.sum_mul, Finset.mul_sum]
        refine Finset.sum_congr rfl fun k _ => by ring
    _ = ∑ a, ∑ k, ∑ b, (X k a * v a) * (X k b * v b) :=
        Finset.sum_congr rfl fun a _ => Finset.sum_comm
    _ = ∑ k, ∑ a, ∑ b, (X k a * v a) * (X k b * v b) := Finset.sum_comm
    _ = ∑ k, (∑ a, X k a * v a) ^ 2 := by
        refine Finset.sum_congr rfl fun k _ => ?_
        rw [sq, Finset.sum_mul_sum]

/-- A Gram matrix is symmetric. -/
theorem gram_symm {n d : ℕ} (X : Matrix (Fin n) (Fin d) ℚ) :
    (Matrix.of fun a b => ∑ k, X k a * X k b).transpose =
      Matrix.of fun a b => ∑ k, X k a * X k b := by
  ext a b
  simp only [Matrix.transpose_apply, Matrix.of_apply]
  exact Finset.sum_congr rfl fun k _ => mul_comm _ _

/-- A Gram matrix is symmetric positive semidefinite. -/
theorem gram_psd {n d : ℕ} (X : Matrix (Fin n) (Fin d) ℚ) :
    IsSymmPSD (Matrix.of fun a b => ∑ k, X k a * X k b) := by
  refine ⟨gram_symm X, fun v => ?_⟩
  rw [gram_quadform]
  exact Finset.sum_nonneg fun k _ => sq_nonneg _

/-- Quadratic form of a scalar multiple. -/
theorem smul_quadform {d : ℕ} (c : ℚ) (M : Matrix (Fin d) (Fin d) ℚ)
    (v : Fin d → ℚ) :
    Matrix.dotProduct v ((c • M).mulVec v) =
      c * Matrix.dotProduct v (M.mulVec v) := by
  rw [Matrix.smul_mulVec_assoc, Matrix.dotProduct_smul, smul_eq_mul]

/-- A nonnegative multiple of a symmetric PSD matrix is symmetric PSD. -/
theorem smul_psd {d : ℕ} (c : ℚ) (M : Matrix (Fin d) (Fin d) ℚ)
    (hc : 0 ≤ c) (h : IsSymmPSD M) : IsSymmPSD (c • M) := by
  refine ⟨?_, fun v => ?_⟩
  · rw [Matrix.transpose_smul, h.1]
  · rw [smul_quadform]
    exact mul_nonneg hc (h.2 v)

/-- Quadratic form of a sum. -/
theorem add_quadform {d : ℕ} (A B : Matrix (Fin d) (Fin d) ℚ)
    (v : Fin d → ℚ) :
    Matrix.dotProduct v ((A + B).mulVec v) =
      Matrix.dotProduct v (A.mulVec v) + Matrix.dotProduct v (B.mulVec v) := by
  rw [Matrix.add_mulVec, Matrix.dotProduct_add]

/-- The sum of two symmetric PSD matrices is symmetric PSD. -/
theorem add_psd {d : ℕ} (A B : Matrix (Fin d) (Fin d) ℚ)
    (hA : IsSymmPSD A) (hB : IsSymmPSD B) : IsSymmPSD (A + B) := by
  refine ⟨?_, fun v => ?_⟩
  · rw [Matrix.transpose_add, hA.1, hB.1]
  · rw [add_quadform]
    exact add_nonneg (hA.2 v) (hB.2 v)

/-- Quadratic form of the identity. -/
theorem one_quadform {d : ℕ} (v : Fin d → ℚ) :
    Matrix.dotProduct v ((1 : Matrix (Fin d) (Fin d) ℚ).mulVec v) =
      ∑ i, v i ^ 2 := by
  rw [Matrix.one_mulVec]
  simp only [Matrix.dotProduct]
  exact Finset.sum_congr rfl fun i _ => (sq (v i)).symm

/-- The quadratic form at a basis vector reads off a diagonal entry. -/
theorem quadform_single {d : ℕ} (M : Matrix (Fin d) (Fin d) ℚ) (a : Fin d) :
    Matrix.dotProduct (Pi.single a 1) (M.mulVec (Pi.single a 1)) = M a a := by
  simp [Matrix.dotProduct, Matrix.mulVec, Pi.single_apply, mul_ite, ite_mul,
    Finset.sum_ite_eq']

/-- `np.cov`'s main path is the scaled Gram matrix of the centered data. -/
theorem covMain_decomp {n d : ℕ} (X : Matrix (Fin n) (Fin d) ℚ) :
    covMain X = ((n : ℚ) - 1)⁻¹ •
      Matrix.of (fun a b => ∑ k, centeredM X k a * centeredM X k b) := by
  ext a b
  simp only [covMain, centeredM, mean0, Matrix.smul_apply, Matrix.of_apply,
    Matrix.transpose_apply, smul_eq_mul]
  rw [div_eq_inv_mul]

/-- `empirical_covariance` is the `n⁻¹`-scaled Gram matrix of its input. -/
theorem empirical_covariance_decomp {n d : ℕ}
    (Xc : Matrix (Fin n) (Fin d) ℚ) :
    empirical_covariance Xc = ((n : ℚ))⁻¹ •
      Matrix.of (fun a b => ∑ k, Xc k a * Xc k b) := by
  ext a b
  simp only [empirical_covariance, Matrix.smul_apply, Matrix.of_apply,
    smul_eq_mul]
  rw [div_eq_inv_mul]

/-- The `np.cov` covariance of a matrix with at least two rows is symmetric
positive semidefinite. -/
theorem covMain_psd {n d : ℕ} (X : Matrix (Fin n) (Fin d) ℚ) (hn : 2 ≤ n) :
    IsSymmPSD (covMain X) := by
  rw [covMain_decomp X]
  refine smul_psd _ _ (inv_nonneg.mpr ?_) (gram_psd _)
  have : (2 : ℚ) ≤ (n : ℚ) := by exact_mod_cast hn
  linarith

/-- The sklearn empirical covariance is symmetric positive semidefinite. -/
theorem empirical_covariance_psd {n d : ℕ}
    (Xc : Matrix (Fin n) (Fin d) ℚ) :
    IsSymmPSD (empirical_covariance Xc) := by
  rw [empirical_covariance_decomp Xc]
  exact smul_psd _ _ (inv_nonneg.mpr (Nat.cast_nonneg n)) (gram_psd _)


/-- Expansion of the squared Frobenius norm of `E - mu*I` over index ranges:
the identity behind sklearn's `delta` being a nonnegative quantity. -/
theorem sq_sub_diag_sum (d : ℕ) (E : ℕ → ℕ → ℚ) (mu : ℚ) :
    ∑ a ∈ Finset.range d, ∑ b ∈ Finset.range d,
      (E a b - if a = b then mu else 0) ^ 2
    = (∑ a ∈ Finset.range d, ∑ b ∈ Finset.range d, E a b ^ 2)
      - 2 * mu * (∑ a ∈ Finset.range d, E a a) + (d : ℚ) * mu ^ 2 := by
  have h1 : ∀ a ∈ Finset.range d,
      (∑ b ∈ Finset.range d, (E a b - if a = b then mu else 0) ^ 2)
      = (∑ b ∈ Finset.range d, E a b ^ 2) - 2 * mu * E a a + mu ^ 2 := by
    intro a ha
    have e1 : ∀ b, (E a b - if a = b then mu else 0) ^ 2
        = E a b ^ 2 - (if a = b then 2 * mu * E a b else 0)
          + (if a = b then mu ^ 2 else 0) := by
      intro b
      by_cases h : a = b
      · simp only [h, if_pos]
        ring
      · simp [h]
    rw [Finset.sum_congr rfl fun b _ => e1 b, Finset.sum_add_distrib,
      Finset.sum_sub_distrib, Finset.sum_ite_eq, if_pos ha,
      Finset.sum_ite_eq, if_pos ha]
  rw [Finset.sum_congr rfl h1, Finset.sum_add_distrib, Finset.sum_sub_distrib,
    ← Finset.mul_sum, Finset.sum_const, Finset.card_range, nsmul_eq_mul]

/-- Cauchy-Schwarz per column pair: each `delta_` contribution is at most
`n` times the matching `beta_` contribution. -/
theorem gDelta_le_n_mul_gBeta {n d : ℕ} (Xc : Matrix (Fin n) (Fin d) ℚ)
    (a b : ℕ) : gDelta Xc a b ≤ (n : ℚ) * gBeta Xc a b := by
  have h := Finset.sum_mul_sq_le_sq_mul_sq (Finset.range n)
    (fun _ => (1 : ℚ)) (fun k => ent Xc k a * ent Xc k b)
  simp only [one_mul, one_pow, Finset.sum_const, Finset.card_range,
    nsmul_eq_mul, mul_one] at h
  calc gDelta Xc a b
      = (∑ k ∈ Finset.range n, ent Xc k a * ent Xc k b) ^ 2 := rfl
    _ ≤ (n : ℚ) * ∑ k ∈ Finset.range n, (ent Xc k a * ent Xc k b) ^ 2 := h
    _ = (n : ℚ) * gBeta Xc a b := by
        rw [Finset.sum_congr rfl fun k _ => mul_pow (ent Xc k a) (ent Xc k b) 2]
        rfl

/-- The Ledoit-Wolf shrinkage value always lies in `[0, 1]`: `beta` is
nonnegative by Cauchy-Schwarz, `delta` is nonnegative as a squared Frobenius
norm, `beta` is clipped at `delta`, and `0/0` cases return `0`. -/
theorem shrinkageFormula_bounds (B D T : ℚ) (d n : ℕ) (hn : 1 ≤ n)
    (hDB : D ≤ (n : ℚ) * B)
    (hnum : 0 ≤ D / (n : ℚ) ^ 2 - 2 * (T / (d : ℚ)) * T
      + (d : ℚ) * (T / (d : ℚ)) ^ 2) :
    0 ≤ shrinkageFormula B D T d n ∧ shrinkageFormula B D T d n ≤ 1 := by
  have hn0 : 0 < (n : ℚ) := by exact_mod_cast hn
  have hdelta : 0 ≤ (D / (n : ℚ) ^ 2 - 2 * (T / (d : ℚ)) * T
      + (d : ℚ) * (T / (d : ℚ)) ^ 2) / (d : ℚ) :=
    div_nonneg hnum (Nat.cast_nonneg d)
  have hbeta1 : 0 ≤ 1 / ((d : ℚ) * (n : ℚ)) * (B / (n : ℚ) - D / (n : ℚ) ^ 2) := by
    refine mul_nonneg (div_nonneg zero_le_one ?_) (sub_nonneg.mpr ?_)
    · exact mul_nonneg (Nat.cast_nonneg d) (Nat.cast_nonneg n)
    · rw [div_le_div_iff₀ (by positivity) hn0]
      calc D * (n : ℚ) ≤ ((n : ℚ) * B) * (n : ℚ) :=
            mul_le_mul_of_nonneg_right hDB hn0.le
        _ = B * (n : ℚ) ^ 2 := by ring
  simp only [shrinkageFormula]
  by_cases hb0 : min (1 / ((d : ℚ) * (n : ℚ)) * (B / (n : ℚ) - D / (n : ℚ) ^ 2))
      ((D / (n : ℚ) ^ 2 - 2 * (T / (d : ℚ)) * T
        + (d : ℚ) * (T / (d : ℚ)) ^ 2) / (d : ℚ)) = 0
  · rw [if_pos hb0]
    exact ⟨le_refl 0, zero_le_one⟩
  · rw [if_neg hb0]
    have hmin : 0 ≤ min (1 / ((d : ℚ) * (n : ℚ)) * (B / (n : ℚ) - D / (n : ℚ) ^ 2))
        ((D / (n : ℚ) ^ 2 - 2 * (T / (d : ℚ)) * T
          + (d : ℚ) * (T / (d : ℚ)) ^ 2) / (d : ℚ)) := le_min hbeta1 hdelta
    have hminpos : 0 < min (1 / ((d : ℚ) * (n : ℚ)) * (B / (n : ℚ) - D / (n : ℚ) ^ 2))
        ((D / (n : ℚ) ^ 2 - 2 * (T / (d : ℚ)) * T
          + (d : ℚ) * (T / (d : ℚ)) ^ 2) / (d : ℚ)) :=
      lt_of_le_of_ne hmin (Ne.symm hb0)
    have hdpos : 0 < (D / (n : ℚ) ^ 2 - 2 * (T / (d : ℚ)) * T
        + (d : ℚ) * (T / (d : ℚ)) ^ 2) / (d : ℚ) :=
      lt_of_lt_of_le hminpos (min_le_right _ _)
    constructor
    · exact div_nonneg hmin hdpos.le
    · rw [div_le_one hdpos]
      exact min_le_right _ _
/-- The shrinkage coefficient computed by `ledoit_wolf_shrinkage` lies in
`[0, 1]` for every centered matrix with at least one sample. -/
theorem ledoit_wolf_shrinkage_bounds {n d : ℕ} (Xc : Matrix (Fin n) (Fin d) ℚ)
    (bs : ℕ) (hn : 1 ≤ n) (hbs : 1 ≤ bs) :
    0 ≤ ledoit_wolf_shrinkage Xc bs ∧ ledoit_wolf_shrinkage Xc bs ≤ 1 := by
  unfold ledoit_wolf_shrinkage
  by_cases hd1 : d = 1
  · rw [if_pos hd1]
    exact ⟨le_refl 0, zero_le_one⟩
  · rw [if_neg hd1]
    apply shrinkageFormula_bounds _ _ _ _ _ hn
    · rw [blockedSum_eq _ _ _ hbs, blockedSum_eq _ _ _ hbs]
      calc ∑ a ∈ Finset.range d, ∑ b ∈ Finset.range d, gDelta Xc a b
          ≤ ∑ a ∈ Finset.range d, ∑ b ∈ Finset.range d, (n : ℚ) * gBeta Xc a b :=
            Finset.sum_le_sum fun a _ => Finset.sum_le_sum fun b _ =>
              gDelta_le_n_mul_gBeta Xc a b
        _ = (n : ℚ) * ∑ a ∈ Finset.range d, ∑ b ∈ Finset.range d, gBeta Xc a b := by
            rw [Finset.mul_sum]
            exact Finset.sum_congr rfl fun a _ => (Finset.mul_sum _ _ _).symm
    · rw [blockedSum_eq _ _ _ hbs]
      have key := sq_sub_diag_sum d
        (fun a b => (∑ k ∈ Finset.range n, ent Xc k a * ent Xc k b) / (n : ℚ))
        ((∑ a ∈ Finset.range d,
          (∑ k ∈ Finset.range n, (ent Xc k a) ^ 2) / (n : ℚ)) / (d : ℚ))
      have f1 : (∑ a ∈ Finset.range d, ∑ b ∈ Finset.range d,
          ((∑ k ∈ Finset.range n, ent Xc k a * ent Xc k b) / (n : ℚ)) ^ 2)
          = (∑ a ∈ Finset.range d, ∑ b ∈ Finset.range d, gDelta Xc a b)
            / (n : ℚ) ^ 2 := by
        simp only [div_pow, gDelta, ← Finset.sum_div]
      have f2 : (∑ a ∈ Finset.range d,
          (∑ k ∈ Finset.range n, ent Xc k a * ent Xc k a) / (n : ℚ))
          = ∑ a ∈ Finset.range d,
            (∑ k ∈ Finset.range n, (ent Xc k a) ^ 2) / (n : ℚ) :=
        Finset.sum_congr rfl fun a _ => by
          rw [Finset.sum_congr rfl fun k _ => (pow_two (ent Xc k a)).symm]
      have pos : (0 : ℚ) ≤ ∑ a ∈ Finset.range d, ∑ b ∈ Finset.range d,
          (((∑ k ∈ Finset.range n, ent Xc k a * ent Xc k b) / (n : ℚ))
            - if a = b then
                (∑ a ∈ Finset.range d,
                  (∑ k ∈ Finset.range n, (ent Xc k a) ^ 2) / (n : ℚ)) / (d : ℚ)
              else 0) ^ 2 :=
        Finset.sum_nonneg fun a _ => Finset.sum_nonneg fun b _ => sq_nonneg _
      rw [key, f1, f2] at pos
      exact pos
/-- The identity matrix is symmetric PSD. -/
theorem one_psd {d : ℕ} : IsSymmPSD (1 : Matrix (Fin d) (Fin d) ℚ) :=
  ⟨Matrix.transpose_one, fun v => by
    rw [one_quadform]
    exact Finset.sum_nonneg fun i _ => sq_nonneg _⟩

/-- Diagonal entries of a symmetric PSD matrix are nonnegative. -/
theorem psd_diag_nonneg {d : ℕ} (M : Matrix (Fin d) (Fin d) ℚ)
    (h : IsSymmPSD M) (a : Fin d) : 0 ≤ M a a := by
  rw [← quadform_single M a]
  exact h.2 _

/-- For more than one feature, the shrunk covariance is the convex-style
combination `(1 - s)·emp_cov + (s·mu)·I` that `_ledoit_wolf` assembles via
`shrunk_cov.flat[::n_features + 1] += shrinkage * mu`. -/
theorem ledoitWolfShrunk_decomp {n d : ℕ} (Xc : Matrix (Fin n) (Fin d) ℚ)
    (bs : ℕ) (hd1 : d ≠ 1) :
    (ledoitWolfShrunk Xc bs).1 =
      (1 - ledoit_wolf_shrinkage Xc bs) • empirical_covariance Xc +
      (ledoit_wolf_shrinkage Xc bs *
        ((∑ a, empirical_covariance Xc a a) / (d : ℚ))) •
        (1 : Matrix (Fin d) (Fin d) ℚ) := by
  ext a b
  simp only [ledoitWolfShrunk, if_neg hd1, Matrix.add_apply, Matrix.smul_apply,
    Matrix.one_apply, Matrix.of_apply, smul_eq_mul]
  by_cases hab : a = b
  · simp [hab]
  · simp [hab]

/-- The covariance returned by sklearn's `_ledoit_wolf` is symmetric positive
semidefinite: a nonnegative combination of the empirical covariance (a Gram
matrix) and the identity, and in the single-feature branch a nonnegative
constant. -/
theorem ledoitWolfShrunk_psd {n d : ℕ} (Xc : Matrix (Fin n) (Fin d) ℚ)
    (bs : ℕ) (hn : 1 ≤ n) (hbs : 1 ≤ bs) :
    IsSymmPSD (ledoitWolfShrunk Xc bs).1 := by
  by_cases hd1 : d = 1
  · subst hd1
    have h1 : (ledoitWolfShrunk Xc bs).1 =
        Matrix.of (fun _ _ =>
          (∑ k, ∑ c, (Xc k c) ^ 2) / ((n : ℚ) * ((1 : ℕ) : ℚ))) := by
      simp [ledoitWolfShrunk]
    rw [h1]
    refine ⟨?_, fun v => ?_⟩
    · ext a b
      simp only [Matrix.transpose_apply, Matrix.of_apply]
    · have hc : (0 : ℚ) ≤ (∑ k, ∑ c, (Xc k c) ^ 2) / ((n : ℚ) * ((1 : ℕ) : ℚ)) :=
        div_nonneg (Finset.sum_nonneg fun k _ =>
          Finset.sum_nonneg fun a _ => sq_nonneg _)
          (mul_nonneg (Nat.cast_nonneg n) (by norm_num))
      simp only [Matrix.dotProduct, Matrix.mulVec, Matrix.of_apply]
      calc ∑ a, v a * ∑ b, ((∑ k, ∑ c, (Xc k c) ^ 2) / ((n : ℚ) * ((1 : ℕ) : ℚ))) * v b
          = ((∑ k, ∑ c, (Xc k c) ^ 2) / ((n : ℚ) * ((1 : ℕ) : ℚ))) *
              (∑ a, v a) ^ 2 := by
            rw [sq, Finset.sum_mul_sum]
            rw [Finset.mul_sum]
            refine Finset.sum_congr rfl fun a _ => ?_
            rw [Finset.mul_sum, Finset.mul_sum]
            refine Finset.sum_congr rfl fun b _ => by ring
        _ ≥ 0 := mul_nonneg hc (sq_nonneg _)
  · rw [ledoitWolfShrunk_decomp Xc bs hd1]
    have hb := ledoit_wolf_shrinkage_bounds Xc bs hn hbs
    refine add_psd _ _ (smul_psd _ _ ?_ (empirical_covariance_psd Xc))
      (smul_psd _ _ ?_ one_psd)
    · linarith [hb.2]
    · refine mul_nonneg hb.1 (div_nonneg ?_ (Nat.cast_nonneg d))
      exact Finset.sum_nonneg fun a _ =>
        psd_diag_nonneg _ (empirical_covariance_psd Xc) a
/-- With fewer samples than features, the `np.cov` covariance is singular:
it is a scaled Gram matrix of rank at most `n < d`, so its determinant
vanishes. -/
theorem covMain_det_zero {n d : ℕ} (X : Matrix (Fin n) (Fin d) ℚ)
    (hnd : n < d) : (covMain X).det = 0 := by
  have hG : (Matrix.of fun a b => ∑ k, centeredM X k a * centeredM X k b) =
      (centeredM X).transpose * centeredM X := by
    ext a b
    simp [Matrix.mul_apply, Matrix.transpose_apply]
  have hrank : ((centeredM X).transpose * centeredM X).rank < Fintype.card (Fin d) := by
    calc ((centeredM X).transpose * centeredM X).rank
        ≤ ((centeredM X).transpose).rank := Matrix.rank_mul_le_left _ _
      _ ≤ Fintype.card (Fin n) := Matrix.rank_le_card_width _
      _ < Fintype.card (Fin d) := by simpa using hnd
  have hdet : ((centeredM X).transpose * centeredM X).det = 0 := by
    by_contra hne
    have hu : IsUnit ((centeredM X).transpose * centeredM X) :=
      (Matrix.isUnit_iff_isUnit_det _).mpr (isUnit_iff_ne_zero.mpr hne)
    have := Matrix.rank_of_isUnit _ hu
    omega
  rw [covMain_decomp X, hG, Matrix.det_smul, hdet, mul_zero]

/-- A nonnegative multiple of a symmetric PSD matrix plus a positive multiple
of the identity is symmetric positive definite. -/
theorem psd_add_pd_one {d : ℕ} (A : Matrix (Fin d) (Fin d) ℚ) (c1 c2 : ℚ)
    (hA : IsSymmPSD A) (hc1 : 0 ≤ c1) (hc2 : 0 < c2) :
    IsSymmPD (c1 • A + c2 • (1 : Matrix (Fin d) (Fin d) ℚ)) := by
  refine ⟨?_, fun v hv => ?_⟩
  · rw [Matrix.transpose_add, Matrix.transpose_smul, Matrix.transpose_smul,
      hA.1, Matrix.transpose_one]
  · rw [add_quadform, smul_quadform, smul_quadform, one_quadform]
    have hv2 : 0 < ∑ i, v i ^ 2 := by
      obtain ⟨i, hi⟩ := Function.ne_iff.mp hv
      refine Finset.sum_pos' (fun j _ => sq_nonneg _) ⟨i, Finset.mem_univ i, ?_⟩
      exact lt_of_le_of_ne (sq_nonneg _) (Ne.symm (pow_ne_zero 2 hi))
    have h1 : 0 ≤ c1 * Matrix.dotProduct v (A.mulVec v) :=
      mul_nonneg hc1 (hA.2 v)
    nlinarith
/-- If the trace of the empirical covariance vanishes, the centered data is
identically zero (each diagonal entry is a nonnegative mean of squares). -/
theorem empirical_trace_zero_imp_zero {n d : ℕ} (Xc : Matrix (Fin n) (Fin d) ℚ)
    (h : (∑ a, empirical_covariance Xc a a) = 0) : Xc = 0 := by
  have hdiag : ∀ a, empirical_covariance Xc a a = 0 := fun a =>
    (Finset.sum_eq_zero_iff_of_nonneg (fun a _ =>
      psd_diag_nonneg _ (empirical_covariance_psd Xc) a)).mp h a (Finset.mem_univ a)
  ext k a
  have h2 : (∑ k, Xc k a * Xc k a) = 0 := by
    have hd := hdiag a
    simp only [empirical_covariance, Matrix.of_apply] at hd
    rcases Nat.eq_zero_or_pos n with hn0 | hn0
    · subst hn0
      exact k.elim0
    · have : ((n : ℚ)) ≠ 0 := by
        have h9 : n ≠ 0 := Nat.pos_iff_ne_zero.mp hn0
        exact_mod_cast h9
      exact (div_eq_zero_iff.mp hd).resolve_right this
  have h3 := (Finset.sum_eq_zero_iff_of_nonneg
    (fun k _ => mul_self_nonneg (Xc k a))).mp h2 k (Finset.mem_univ k)
  simpa using mul_self_eq_zero.mp h3

/-- The shrinkage coefficient of the zero matrix is `0` (`beta` and `delta`
both vanish, and sklearn returns `0` in that case). -/
theorem ledoit_wolf_shrinkage_zero {n d : ℕ} (bs : ℕ) (hbs : 1 ≤ bs) :
    ledoit_wolf_shrinkage (0 : Matrix (Fin n) (Fin d) ℚ) bs = 0 := by
  unfold ledoit_wolf_shrinkage
  by_cases hd1 : d = 1
  · simp [hd1]
  · rw [if_neg hd1]
    have hent : ∀ k a : ℕ, ent (0 : Matrix (Fin n) (Fin d) ℚ) k a = 0 := by
      intro k a
      unfold ent
      split <;> simp
    have hgB : ∀ a b : ℕ, gBeta (0 : Matrix (Fin n) (Fin d) ℚ) a b = 0 := by
      intro a b
      simp [gBeta, hent]
    have hgD : ∀ a b : ℕ, gDelta (0 : Matrix (Fin n) (Fin d) ℚ) a b = 0 := by
      intro a b
      simp [gDelta, hent]
    rw [blockedSum_eq _ _ _ hbs, blockedSum_eq _ _ _ hbs]
    simp [hgB, hgD, hent, shrinkageFormula]

/-- Whenever the computed shrinkage coefficient is positive, the shrunk
covariance is symmetric positive definite: positivity of the shrinkage forces
a positive trace `mu`, so a positive multiple of the identity is added to a
PSD matrix. -/
theorem ledoitWolfShrunk_pd_of_shrinkage_pos {n d : ℕ}
    (Xc : Matrix (Fin n) (Fin d) ℚ) (bs : ℕ) (hn : 1 ≤ n) (hbs : 1 ≤ bs)
    (hs : 0 < (ledoitWolfShrunk Xc bs).2) :
    IsSymmPD (ledoitWolfShrunk Xc bs).1 := by
  by_cases hd1 : d = 1
  · exfalso
    rw [show (ledoitWolfShrunk Xc bs).2 = 0 by simp [ledoitWolfShrunk, hd1]] at hs
    exact lt_irrefl 0 hs
  · have hs' : 0 < ledoit_wolf_shrinkage Xc bs := by
      rwa [show (ledoitWolfShrunk Xc bs).2 = ledoit_wolf_shrinkage Xc bs by
        simp [ledoitWolfShrunk, hd1]] at hs
    have hb := ledoit_wolf_shrinkage_bounds Xc bs hn hbs
    have hd0 : d ≠ 0 := by
      intro h0
      subst h0
      have hXc : Xc = 0 := by
        ext k a
        exact a.elim0
      rw [hXc, ledoit_wolf_shrinkage_zero bs hbs] at hs'
      exact lt_irrefl 0 hs'
    have htr0 : (∑ a, empirical_covariance Xc a a) ≠ 0 := by
      intro heq
      have hXc := empirical_trace_zero_imp_zero Xc heq
      rw [hXc, ledoit_wolf_shrinkage_zero bs hbs] at hs'
      exact lt_irrefl 0 hs'
    have hmu : 0 < (∑ a, empirical_covariance Xc a a) / (d : ℚ) := by
      refine div_pos (lt_of_le_of_ne ?_ (Ne.symm htr0)) ?_
      · exact Finset.sum_nonneg fun a _ =>
          psd_diag_nonneg _ (empirical_covariance_psd Xc) a
      · exact_mod_cast Nat.pos_of_ne_zero hd0
    rw [ledoitWolfShrunk_decomp Xc bs hd1]
    exact psd_add_pd_one _ _ _ (empirical_covariance_psd Xc)
      (by linarith [hb.2]) (mul_pos hs' hmu)
/-- C6 counterexample: `[[3]]` is a valid embedding matrix (one row, one
column, finite), yet the covariance `MaxLikelihoodEstimator` returns for it is
the NaN scalar (`np.cov` clips `fact` to `0` and divides `0` by `0`), which is
not a symmetric positive semidefinite matrix of any size. -/
theorem C6_counterexample :
    MaxLikelihoodEstimator.estimate_parameters {} [[3]] =
      .ok (.vec [some 3], .scalar none) := by
  simp [MaxLikelihoodEstimator.estimate_parameters, rectangular, np_mean, np_cov,
    covSingleRow, mean0, toMat, Fin.sum_univ_one, List.ofFn_succ, List.ofFn_zero]

/-- C6 (amended): for every embedding matrix with at least **2** rows, the
covariance returned by either estimator is symmetric and positive
semidefinite (in exact arithmetic, hence with no negative eigenvalues at
all): `np.cov`'s matrix is a scaled Gram matrix, and the Ledoit-Wolf shrunk
covariance adds a nonnegative multiple of the identity to a scaled Gram
matrix.  (`covMain` is `np.cov`'s n >= 2 path as established for C1;
`ledoitWolfShrunk (centeredM X)` is what `fit` stores as `covariance_` as
established for C5.) -/
theorem C6_amended (n d : ℕ) (X : Matrix (Fin n) (Fin d) ℚ) (bs : ℕ)
    (hn : 2 ≤ n) (hbs : 1 ≤ bs) :
    IsSymmPSD (covMain X) ∧
    IsSymmPSD (ledoitWolfShrunk (centeredM X) bs).1 :=
  ⟨covMain_psd X hn, ledoitWolfShrunk_psd (centeredM X) bs (by omega) hbs⟩

/-- Witness for C6 at the `2 x 2` zero matrix and the default block size. -/
theorem C6_amended_witness :
    IsSymmPSD (covMain (0 : Matrix (Fin 2) (Fin 2) ℚ)) ∧
    IsSymmPSD (ledoitWolfShrunk (centeredM (0 : Matrix (Fin 2) (Fin 2) ℚ))
      1000).1 :=
  C6_amended 2 2 0 1000 (by decide) (by decide)

/-- C7 counterexample: on the (valid) all-zero `10 x 128` embedding matrix the
shrinkage coefficient computed by sklearn is `0` and the shrunk covariance
equals the `np.cov` maximum-likelihood covariance exactly (both are the zero
matrix), so the shrinkage covariance cannot have a *strictly smaller*
condition number than the MLE covariance there, under any definition of
condition number. -/
theorem C7_counterexample :
    (ledoitWolfShrunk (centeredM (0 : Matrix (Fin 10) (Fin 128) ℚ)) 1000).1 =
      covMain (0 : Matrix (Fin 10) (Fin 128) ℚ) ∧
    (ledoitWolfShrunk (centeredM (0 : Matrix (Fin 10) (Fin 128) ℚ)) 1000).2
      = 0 := by
  have hc : centeredM (0 : Matrix (Fin 10) (Fin 128) ℚ) = 0 := by
    ext k a
    simp [centeredM, mean0]
  have hcm : covMain (0 : Matrix (Fin 10) (Fin 128) ℚ) = 0 := by
    ext a b
    simp [covMain]
  have hemp : empirical_covariance (0 : Matrix (Fin 10) (Fin 128) ℚ) = 0 := by
    ext a b
    simp [empirical_covariance]
  have hd1 : (128 : ℕ) ≠ 1 := by norm_num
  have hshr := ledoit_wolf_shrinkage_zero (n := 10) (d := 128) 1000 (by norm_num)
  constructor
  · rw [hc, hcm, ledoitWolfShrunk_decomp _ _ hd1, hshr, hemp]
    simp
  · rw [hc, show (ledoitWolfShrunk (0 : Matrix (Fin 10) (Fin 128) ℚ) 1000).2 =
      ledoit_wolf_shrinkage (0 : Matrix (Fin 10) (Fin 128) ℚ) 1000 by
        simp [ledoitWolfShrunk, hd1]]
    exact hshr

/-- Witness matrix for C7: `3` samples of dimension `4` whose computed
shrinkage coefficient is positive (`2/9`). -/
def X7 : Matrix (Fin 3) (Fin 4) ℚ :=
  Matrix.of fun k a => if (k : ℕ) = 0 ∧ (a : ℕ) = 0 then 3 else 0

/-- The centered version of `X7` (column means subtracted). -/
def X7c : Matrix (Fin 3) (Fin 4) ℚ :=
  Matrix.of fun k a =>
    if (a : ℕ) = 0 then (if (k : ℕ) = 0 then 2 else -1) else 0

/-- Centering `X7` gives `X7c`. -/
theorem X7_centered : centeredM X7 = X7c := by
  ext k a
  simp only [centeredM, X7, X7c, mean0, Matrix.of_apply]
  by_cases ha : (a : ℕ) = 0
  · by_cases hk : (k : ℕ) = 0 <;>
      norm_num [ha, hk, Fin.sum_univ_succ]
  · simp [ha, Fin.sum_univ_succ]

/-- Entries of `X7c` through the zero-padded accessor. -/
theorem X7c_ent : ∀ k a : ℕ, ent X7c k a =
    if k < 3 ∧ a < 4 then
      (if a = 0 then (if k = 0 then 2 else -1) else 0) else 0 := by
  intro k a
  unfold ent
  split
  · rfl
  · rfl

/-- The `beta_` contributions of `X7c`: only the `(0,0)` column pair is
nonzero. -/
theorem X7c_gBeta : ∀ a b : ℕ, gBeta X7c a b =
    if a = 0 ∧ b = 0 then 18 else 0 := by
  intro a b
  simp only [gBeta, X7c_ent]
  by_cases ha : a = 0 <;> by_cases hb : b = 0 <;>
    norm_num [ha, hb, Finset.sum_range_succ]

/-- The `delta_` contributions of `X7c`: only the `(0,0)` column pair is
nonzero. -/
theorem X7c_gDelta : ∀ a b : ℕ, gDelta X7c a b =
    if a = 0 ∧ b = 0 then 36 else 0 := by
  intro a b
  simp only [gDelta, X7c_ent]
  by_cases ha : a = 0 <;> by_cases hb : b = 0 <;>
    norm_num [ha, hb, Finset.sum_range_succ]

/-- The shrinkage coefficient of `X7` is positive (it equals `2/9`). -/
theorem X7c_shrinkage_pos : 0 < (ledoitWolfShrunk (centeredM X7) 4).2 := by
  rw [X7_centered]
  have h2 : (ledoitWolfShrunk X7c 4).2 = ledoit_wolf_shrinkage X7c 4 := by
    simp [ledoitWolfShrunk]
  rw [h2]
  unfold ledoit_wolf_shrinkage
  rw [if_neg (by norm_num)]
  rw [blockedSum_eq _ _ _ (by norm_num), blockedSum_eq _ _ _ (by norm_num)]
  have hB : (∑ a ∈ Finset.range 4, ∑ b ∈ Finset.range 4, gBeta X7c a b)
      = 18 := by
    norm_num [X7c_gBeta, Finset.sum_range_succ]
  have hD : (∑ a ∈ Finset.range 4, ∑ b ∈ Finset.range 4, gDelta X7c a b)
      = 36 := by
    norm_num [X7c_gDelta, Finset.sum_range_succ]
  have hT : (∑ a ∈ Finset.range 4,
      (∑ k ∈ Finset.range 3, (ent X7c k a) ^ 2) / ((3 : ℕ) : ℚ)) = 2 := by
    norm_num [X7c_ent, Finset.sum_range_succ]
  rw [hB, hD, hT]
  norm_num [shrinkageFormula, min_def]

/-- C7 (amended): whenever there are fewer samples than features (such as 10
samples in 128 dimensions) and the computed shrinkage coefficient is
positive, the maximum-likelihood covariance (`np.cov`) is singular — its
determinant is zero, i.e. its condition number is infinite — while the
shrinkage covariance is symmetric positive definite, hence invertible with a
finite condition number: strictly smaller than the MLE's.  The positivity
condition is necessary: see the counterexample at the all-zero matrix. -/
theorem C7_amended (n d : ℕ) (X : Matrix (Fin n) (Fin d) ℚ) (bs : ℕ)
    (hn : 1 ≤ n) (hnd : n < d) (hbs : 1 ≤ bs)
    (hs : 0 < (ledoitWolfShrunk (centeredM X) bs).2) :
    (covMain X).det = 0 ∧ IsSymmPD (ledoitWolfShrunk (centeredM X) bs).1 :=
  ⟨covMain_det_zero X hnd,
   ledoitWolfShrunk_pd_of_shrinkage_pos (centeredM X) bs hn hbs hs⟩

/-- Witness for C7 at the `3 x 4` matrix `X7` with block size 4. -/
theorem C7_amended_witness :
    (covMain X7).det = 0 ∧ IsSymmPD (ledoitWolfShrunk (centeredM X7) 4).1 :=
  C7_amended 3 4 X7 4 (by norm_num) (by norm_num) (by norm_num)
    X7c_shrinkage_pos

/-! ### Claim C8 — the Frechet distance engine, modelled from the spec

The engine (`FrechetDistanceEngine.compute`) is not among the files under
`src/`; only the estimators it delegates to are.  The definitions below are
therefore modelled from the spec rather than translated from source code, and
are stated over exact rationals (the absent code would use floats). -/

open Classical in
/-- Modelled from the spec's glossary: the matrix square root (principal
branch) is "the unique positive semi-definite matrix whose square equals the
input".  When such a symmetric PSD square root exists it is chosen; when none
exists (over `ℚ`, or because the product of two non-commuting covariances is
not even symmetric, while the square of a symmetric matrix always is) the
model falls back to `0`. -/
noncomputable def sqrtm {d : ℕ} (M : Matrix (Fin d) (Fin d) ℚ) :
    Matrix (Fin d) (Fin d) ℚ :=
  if h : ∃ S, IsSymmPSD S ∧ S * S = M then h.choose else 0

/-- Modelled from the spec: the engine's `compute` — missing from `src/` —
fits `(mu_r, sigma_r)` and `(mu_c, sigma_c)` on the two matrices
independently with the supplied estimator and returns
`d^2 = ||mu_r - mu_c||^2 + trace(sigma_r + sigma_c - 2*sqrtm(sigma_r
sigma_c))`.  The two matrices share the feature dimension `d` by typing, so
the spec's `DimensionMismatchError` case cannot arise here. -/
noncomputable def compute {d nA nB : ℕ}
    (est : {m : ℕ} → Matrix (Fin m) (Fin d) ℚ →
      (Fin d → ℚ) × Matrix (Fin d) (Fin d) ℚ)
    (A : Matrix (Fin nA) (Fin d) ℚ) (B : Matrix (Fin nB) (Fin d) ℚ) : ℚ :=
  (∑ j, ((est A).1 j - (est B).1 j) ^ 2) +
    Matrix.trace ((est A).2 + (est B).2 -
      (2 : ℚ) • sqrtm ((est A).2 * (est B).2))

/-- If the product of two symmetric matrices has a symmetric PSD square root,
the product is itself symmetric, which for symmetric factors forces them to
commute. -/
theorem comm_of_psd_sqrt {d : ℕ} {P Q : Matrix (Fin d) (Fin d) ℚ}
    (hP : P.transpose = P) (hQ : Q.transpose = Q)
    (h : ∃ S, IsSymmPSD S ∧ S * S = P * Q) : P * Q = Q * P := by
  obtain ⟨S, hS, hsq⟩ := h
  have hsymm : (P * Q).transpose = P * Q := by
    rw [← hsq, Matrix.transpose_mul, hS.1]
  calc P * Q = (P * Q).transpose := hsymm.symm
    _ = Q.transpose * P.transpose := Matrix.transpose_mul P Q
    _ = Q * P := by rw [hP, hQ]

/-- The trace of the spec's matrix square root is insensitive to the order of
the product of two symmetric matrices: when a PSD square root exists the
factors commute, and when none exists for one order none exists for the other
and both square roots are the fallback `0`. -/
theorem sqrtm_trace_comm {d : ℕ} (P Q : Matrix (Fin d) (Fin d) ℚ)
    (hP : P.transpose = P) (hQ : Q.transpose = Q) :
    (sqrtm (P * Q)).trace = (sqrtm (Q * P)).trace := by
  by_cases h : ∃ S, IsSymmPSD S ∧ S * S = P * Q
  · rw [comm_of_psd_sqrt hP hQ h]
  · have h' : ¬ ∃ S, IsSymmPSD S ∧ S * S = Q * P := by
      intro hex
      have hc := comm_of_psd_sqrt hQ hP hex
      exact h (hc ▸ hex)
    unfold sqrtm
    rw [dif_neg h, dif_neg h']

/-- C8: the engine's `compute` is symmetric in its two matrix arguments, for
every estimator whose returned covariance is symmetric (the spec's
`GaussianParameters` invariant, established for both concrete estimators in
the C6 development): the mean term is a symmetric sum of squares and the
trace term is symmetric by `sqrtm_trace_comm`.  In exact arithmetic the
equality is exact, stronger than the spec's floating-point tolerance. -/
theorem C8_compute_symmetric {d nA nB : ℕ}
    (est : {m : ℕ} → Matrix (Fin m) (Fin d) ℚ →
      (Fin d → ℚ) × Matrix (Fin d) (Fin d) ℚ)
    (A : Matrix (Fin nA) (Fin d) ℚ) (B : Matrix (Fin nB) (Fin d) ℚ)
    (hA : ((est A).2).transpose = (est A).2)
    (hB : ((est B).2).transpose = (est B).2) :
    compute est A B = compute est B A := by
  unfold compute
  have hmean : (∑ j, ((est A).1 j - (est B).1 j) ^ 2)
      = ∑ j, ((est B).1 j - (est A).1 j) ^ 2 :=
    Finset.sum_congr rfl fun j _ => by ring
  have htr : Matrix.trace ((est A).2 + (est B).2 -
      (2 : ℚ) • sqrtm ((est A).2 * (est B).2))
      = Matrix.trace ((est B).2 + (est A).2 -
        (2 : ℚ) • sqrtm ((est B).2 * (est A).2)) := by
    rw [Matrix.trace_sub, Matrix.trace_sub, Matrix.trace_add,
      Matrix.trace_add, Matrix.trace_smul, Matrix.trace_smul,
      sqrtm_trace_comm _ _ hA hB, add_comm]
  rw [hmean, htr]

/-- Witness for C8 with the constant estimator returning mean `0` and
covariance `I` on two zero matrices with different sample counts. -/
theorem C8_compute_symmetric_witness :
    compute (fun {_} _ => ((0 : Fin 2 → ℚ), (1 : Matrix (Fin 2) (Fin 2) ℚ)))
      (0 : Matrix (Fin 1) (Fin 2) ℚ) (0 : Matrix (Fin 3) (Fin 2) ℚ) =
    compute (fun {_} _ => ((0 : Fin 2 → ℚ), (1 : Matrix (Fin 2) (Fin 2) ℚ)))
      (0 : Matrix (Fin 3) (Fin 2) ℚ) (0 : Matrix (Fin 1) (Fin 2) ℚ) :=
  C8_compute_symmetric _ _ _ (by simp) (by simp)
end FMD
